import Mathlib

deriving instance DecidableEq for Except

/-!
Verification development for the repository's code-aware RAG pipeline
(`src/trials/rag_component/git_ragx.py`).  The Python source is shallowly
embedded: pure helpers become Lean functions over `String` / `List`,
Python `str` is modelled as its sequence of Unicode code points (so
`len(s)` is `String.length`), byte strings appear only through
`String.utf8ByteSize`, floating point vectors are modelled over `Rat`,
and external collaborators (CPython's `ast.parse`, the sentence
transformer's `encode`, FAISS, `hashlib.md5`) enter as explicit
parameters or as small models of their documented behaviour.
-/

namespace GitRagx

/-! ## Python string primitives

Structural models of the CPython `str` operations the pipeline uses,
restricted to the ASCII whitespace/word classes (all inputs exercised by
the theorems below are ASCII apart from the explicitly non-ASCII
counterexample, which contains no exotic whitespace).
-/

/-- Characters matched by the regex class `\s` and stripped by `str.strip()`
(ASCII fragment). -/
def isPyWs (c : Char) : Bool :=
  c = ' ' || c = '\t' || c = '\n' || c = '\r' || c = '\x0b' || c = '\x0c'

/-- Characters matched by the regex class `\w` (ASCII fragment). -/
def isPyWord (c : Char) : Bool :=
  c.isAlpha || c.isDigit || c = '_'

/-- Model of Python `content.split('\n')` on the code-point list: split at every
newline, keeping empty pieces, and `[""]` for the empty string. -/
def splitNlChars : List Char → List (List Char)
  | [] => [[]]
  | c :: cs =>
    if c = '\n' then [] :: splitNlChars cs
    else
      match splitNlChars cs with
      | t :: ts => (c :: t) :: ts
      | [] => [[c]]

/-- Model of Python `content.split('\n')`. -/
def pySplitLines (s : String) : List String :=
  (splitNlChars s.toList).map (fun cs => String.mk cs)

/-- Model of Python `'\n'.join(lines)`. -/
def joinNl : List String → String
  | [] => ""
  | [s] => s
  | s :: rest => s ++ "\n" ++ joinNl rest

/-- Model of Python `s.strip()` (ASCII whitespace fragment). -/
def pyTrim (s : String) : String :=
  String.mk (((s.toList.dropWhile isPyWs).reverse.dropWhile isPyWs).reverse)

/-- Model of Python `s.lower()` (per-code-point lowering, ASCII-adequate). -/
def pyLower (s : String) : String :=
  String.mk (s.toList.map Char.toLower)

/-- Model of the Python slice `lst[-k:] if len(lst) > k else lst` used for the
overlap lines; note that `lst[-0:]` is the whole list. -/
def pyTakeLast (l : List String) (k : Nat) : List String :=
  if l.length > k then (if k = 0 then l else l.drop (l.length - k)) else l

/-- One-based inclusive line range `lines[a..b]`, i.e. the Python slice
`lines[a-1:b]`. -/
def sliceLines (lines : List String) (a b : Nat) : List String :=
  (lines.take b).drop (a - 1)

/-! ## Regular-expression matchers

Deterministic models of the concrete patterns in
`SmartCodeChunker.language_patterns`, evaluated the way `re.match` does:
anchored at the start of the line, any prefix match succeeds.  The
sub-regexes used (`\s*`, `\s+`, `\w+`, `\S+`, literals, small
alternations) allow a maximal-munch implementation because adjacent
pieces draw from disjoint character classes; the optional/starred groups
of the Java and C++ patterns are handled by enumerating their candidate
end positions. -/

/-- Consume `p*` (maximal munch). -/
def dropStar (p : Char → Bool) : List Char → List Char
  | [] => []
  | c :: cs => if p c then dropStar p cs else c :: cs

/-- Consume `p+`: at least one `p` character, then maximal munch. -/
def dropPlus (p : Char → Bool) (cs : List Char) : Option (List Char) :=
  match cs with
  | [] => none
  | c :: cs' => if p c then some (dropStar p cs') else none

/-- Consume a literal. -/
def dropLit : List Char → List Char → Option (List Char)
  | [], cs => some cs
  | _, [] => none
  | l :: ls, c :: cs => if c = l then dropLit ls cs else none

/-- Does the char list contain the literal as a substring? (models the lazy
`[\s\S]*?lit`). -/
def containsLit (pat : List Char) : List Char → Bool
  | [] => (dropLit pat ([] : List Char)).isSome
  | c :: cs => (dropLit pat (c :: cs)).isSome || containsLit pat cs

/-- Model of Python `line.startswith(prefix)` / `s.startsWith`. -/
def strStartsWith (s pre : String) : Bool :=
  (dropLit pre.toList s.toList).isSome

/-- Python pattern `^\s*def\s+\w+\s*\(`. -/
def pyFunctionPat (line : String) : Bool :=
  let s := dropStar isPyWs line.toList
  match dropLit "def".toList s with
  | some r =>
    match dropPlus isPyWs r with
    | some r2 =>
      match dropPlus isPyWord r2 with
      | some r3 =>
        match dropStar isPyWs r3 with
        | '(' :: _ => true
        | _ => false
      | none => false
    | none => false
  | none => false

/-- Python pattern `^\s*class\s+\w+\s*[\(:]`. -/
def pyClassPat (line : String) : Bool :=
  let s := dropStar isPyWs line.toList
  match dropLit "class".toList s with
  | some r =>
    match dropPlus isPyWs r with
    | some r2 =>
      match dropPlus isPyWord r2 with
      | some r3 =>
        match dropStar isPyWs r3 with
        | '(' :: _ => true
        | ':' :: _ => true
        | _ => false
      | none => false
    | none => false
  | none => false

/-- Helper for the import patterns: `import\s+` at the current position. -/
def importKw (cs : List Char) : Bool :=
  match dropLit "import".toList cs with
  | some r => (dropPlus isPyWs r).isSome
  | none => false

/-- Python pattern `^\s*(?:from\s+\S+\s+)?import\s+`. -/
def pyImportPat (line : String) : Bool :=
  let s := dropStar isPyWs line.toList
  let withFrom :=
    match dropLit "from".toList s with
    | some r =>
      match dropPlus isPyWs r with
      | some r2 =>
        match dropPlus (fun c => !isPyWs c) r2 with
        | some r3 =>
          match dropPlus isPyWs r3 with
          | some r4 => importKw r4
          | none => false
        | none => false
      | none => false
    | none => false
  withFrom || importKw s

/-- Python pattern `^\s*#`. -/
def pyCommentPat (line : String) : Bool :=
  match dropStar isPyWs line.toList with
  | '#' :: _ => true
  | _ => false

/-- Python pattern `\s*"""[\s\S]*?"""` under `re.match`: optional whitespace,
an opening triple quote, and a closing triple quote later in the line. -/
def pyDocstringPat (line : String) : Bool :=
  let s := dropStar isPyWs line.toList
  match dropLit "\"\"\"".toList s with
  | some r => containsLit "\"\"\"".toList r
  | none => false

/-- JavaScript pattern `^\s*(?:function\s+\w+|\w+\s*[:=]\s*function|\w+\s*=>)`. -/
def jsFunctionPat (line : String) : Bool :=
  let s := dropStar isPyWs line.toList
  let altA :=
    match dropLit "function".toList s with
    | some r =>
      match dropPlus isPyWs r with
      | some r2 => (dropPlus isPyWord r2).isSome
      | none => false
    | none => false
  let altBC :=
    match dropPlus isPyWord s with
    | some r =>
      (match dropStar isPyWs r with
       | c :: rest =>
         (c = ':' || c = '=') &&
           (dropLit "function".toList (dropStar isPyWs rest)).isSome
       | [] => false) ||
      (dropLit "=>".toList (dropStar isPyWs r)).isSome
    | none => false
  altA || altBC

/-- JavaScript/C++ pattern `^\s*class\s+\w+`. -/
def jsClassPat (line : String) : Bool :=
  let s := dropStar isPyWs line.toList
  match dropLit "class".toList s with
  | some r =>
    match dropPlus isPyWs r with
    | some r2 => (dropPlus isPyWord r2).isSome
    | none => false
  | none => false

/-- JavaScript pattern `^\s*(?:import|export|require)\s+`. -/
def jsImportPat (line : String) : Bool :=
  let s := dropStar isPyWs line.toList
  let kw (w : String) : Bool :=
    match dropLit w.toList s with
    | some r => (dropPlus isPyWs r).isSome
    | none => false
  kw "import" || kw "export" || kw "require"

/-- Pattern `^\s*//` (JavaScript, Java, C++ comments). -/
def slashCommentPat (line : String) : Bool :=
  (dropLit "//".toList (dropStar isPyWs line.toList)).isSome

/-- Candidate positions after an optional literal, greedy order (with the
literal first, then without). -/
def optLit (w : String) (cs : List Char) : List (List Char) :=
  match dropLit w.toList cs with
  | some r => [r, cs]
  | none => [cs]

/-- The mandatory tail `\w+\s+\w+\s*\(` of the Java function pattern. -/
def javaFunCore (cs : List Char) : Bool :=
  match dropPlus isPyWord cs with
  | some r =>
    match dropPlus isPyWs r with
    | some r2 =>
      match dropPlus isPyWord r2 with
      | some r3 =>
        match dropStar isPyWs r3 with
        | '(' :: _ => true
        | _ => false
      | none => false
    | none => false
  | none => false

/-- Java pattern `^\s*(?:public|private|protected)?\s*(?:static)?\s*\w+\s+\w+\s*\(`. -/
def javaFunctionPat (line : String) : Bool :=
  let s := dropStar isPyWs line.toList
  let g1 :=
    (match dropLit "public".toList s with | some r => [r] | none => []) ++
    (match dropLit "private".toList s with | some r => [r] | none => []) ++
    (match dropLit "protected".toList s with | some r => [r] | none => []) ++ [s]
  g1.any (fun r =>
    let r1 := dropStar isPyWs r
    let g2 :=
      (match dropLit "static".toList r1 with | some r2 => [r2] | none => []) ++ [r1]
    g2.any (fun r2 => javaFunCore (dropStar isPyWs r2)))

/-- Java pattern `^\s*(?:public|private)?\s*class\s+\w+`. -/
def javaClassPat (line : String) : Bool :=
  let s := dropStar isPyWs line.toList
  let g1 :=
    (match dropLit "public".toList s with | some r => [r] | none => []) ++
    (match dropLit "private".toList s with | some r => [r] | none => []) ++ [s]
  g1.any (fun r =>
    match dropLit "class".toList (dropStar isPyWs r) with
    | some r2 =>
      match dropPlus isPyWs r2 with
      | some r3 => (dropPlus isPyWord r3).isSome
      | none => false
    | none => false)

/-- Java pattern `^\s*import\s+`. -/
def javaImportPat (line : String) : Bool :=
  importKw (dropStar isPyWs line.toList)

/-- Candidate positions reached by `(?:\w+\s+)*` (fuelled iteration; the fuel
`n` bounds the number of star iterations, each of which consumes at least two
characters, so `cs.length` fuel is always enough). -/
def starWordWs (n : Nat) (cs : List Char) : List (List Char) :=
  match n with
  | 0 => [cs]
  | n + 1 =>
    cs ::
      (match (dropPlus isPyWord cs).bind (dropPlus isPyWs) with
       | some r => starWordWs n r
       | none => [])

/-- C++ pattern `^\s*(?:\w+\s+)*\w+\s*\([^)]*\)\s*\x7b`. -/
def cppFunctionPat (line : String) : Bool :=
  let s := dropStar isPyWs line.toList
  (starWordWs s.length s).any (fun cand =>
    match dropPlus isPyWord cand with
    | some r =>
      match dropStar isPyWs r with
      | '(' :: r2 =>
        match dropStar (fun c => c ≠ ')') r2 with
        | ')' :: r3 =>
          match dropStar isPyWs r3 with
          | '\x7b' :: _ => true
          | _ => false
        | _ => false
      | _ => false
    | none => false)

/-- C++ pattern `^\s*#include\s*[<"]`. -/
def cppIncludePat (line : String) : Bool :=
  match dropLit "#include".toList (dropStar isPyWs line.toList) with
  | some r =>
    match dropStar isPyWs r with
    | '<' :: _ => true
    | '"' :: _ => true
    | _ => false
  | none => false

/-! ## Language detection and pattern tables -/

/-- Model of `Path(file_path).suffix`: the final dotted extension of the last
path component, empty when the last dot is the first or last character of the
name (pathlib's rule). -/
def pySuffix (path : String) : String :=
  let name := ((pySplitLines ((path.toList.map (fun c => if c = '/' then '\n' else c)).asString)).getLastD "")
  let cs := name.toList
  match (cs.reverse).findIdx? (fun c => c = '.') with
  | some j =>
    if 1 ≤ j ∧ j + 2 ≤ cs.length then String.mk (cs.drop (cs.length - 1 - j)) else ""
  | none => ""

/-- Model of `SmartCodeChunker.detect_language`: extension → language tag with
a `"text"` default. -/
def detectLanguage (filePath : String) : String :=
  match pyLower (pySuffix filePath) with
  | ".py" => "python"
  | ".js" => "javascript"
  | ".ts" => "javascript"
  | ".jsx" => "javascript"
  | ".tsx" => "javascript"
  | ".java" => "java"
  | ".cpp" => "cpp"
  | ".cc" => "cpp"
  | ".cxx" => "cpp"
  | ".c" => "cpp"
  | ".h" => "cpp"
  | ".hpp" => "cpp"
  | ".go" => "go"
  | ".rs" => "rust"
  | ".rb" => "ruby"
  | ".php" => "php"
  | ".cs" => "csharp"
  | _ => "text"

/-- Model of `SmartCodeChunker.language_patterns[language]` (with `.get`'s
empty default): the pattern table in dict insertion order. -/
def languagePatterns (lang : String) : List (String × (String → Bool)) :=
  if lang = "python" then
    [("function", pyFunctionPat), ("class", pyClassPat), ("import", pyImportPat),
     ("comment", pyCommentPat), ("docstring", pyDocstringPat)]
  else if lang = "javascript" then
    [("function", jsFunctionPat), ("class", jsClassPat), ("import", jsImportPat),
     ("comment", slashCommentPat)]
  else if lang = "java" then
    [("function", javaFunctionPat), ("class", javaClassPat), ("import", javaImportPat),
     ("comment", slashCommentPat)]
  else if lang = "cpp" then
    [("function", cppFunctionPat), ("class", jsClassPat), ("include", cppIncludePat),
     ("comment", slashCommentPat)]
  else []

/-- The per-line classification loop of `extract_regex_chunks`: the first
pattern that `re.match`es wins, default `'code'`. -/
def lineTypeOf (patterns : List (String × (String → Bool))) (line : String) : String :=
  match patterns.find? (fun p => p.2 line) with
  | some p => p.1
  | none => "code"

/-! ## The chunk data model -/

/-- The metadata dictionary attached to a `CodeChunk`.  The source stores a
plain `dict`; the keys actually written are `name`, `type` and `docstring`
(structural extraction) and `extracted_by` and `split_reason` (pattern
extraction).  A `none` field models an absent key; `dsName = some n` with a
possibly empty `n` models `metadata['name'] = n`, and `docstring` can be
present with value `None` (Python `ast.get_docstring` may return `None`). -/
structure ChunkMeta where
  nameKey : Option String := none
  typeKey : Option String := none
  docstringKey : Option (Option String) := none
  extractedBy : Option String := none
  splitReason : Option String := none
deriving DecidableEq, Repr

/-- Model of the `CodeChunk` dataclass.  `size` is whatever
`len(chunk_content)` produced (the number of code points of a Python `str`),
`hash_id` whatever the hash function produced, and `embedding` a vector over
`Rat` standing in for the float vector. -/
structure CodeChunk where
  content : String
  file_path : String
  start_line : Nat
  end_line : Nat
  chunk_type : String
  language : String
  size : Nat
  hash_id : String
  metadata : ChunkMeta
  embedding : Option (List Rat) := none
deriving DecidableEq, Repr

/-- Model of `CodeChunk.to_dict`'s output: `asdict(self)` with the embedding
converted by `tolist()` (on `Rat` values the `ndarray -> list -> ndarray`
round trip is exact, as is `float32 -> float` widening). -/
structure SerializedChunk where
  content : String
  file_path : String
  start_line : Nat
  end_line : Nat
  chunk_type : String
  language : String
  size : Nat
  hash_id : String
  metadata : ChunkMeta
  embedding : Option (List Rat)
deriving DecidableEq, Repr

/-- Model of `CodeChunk.to_dict`. -/
def CodeChunk.toDict (c : CodeChunk) : SerializedChunk :=
  ⟨c.content, c.file_path, c.start_line, c.end_line, c.chunk_type, c.language,
   c.size, c.hash_id, c.metadata, c.embedding⟩

/-- Model of `CodeChunk.from_dict`. -/
def SerializedChunk.fromDict (d : SerializedChunk) : CodeChunk :=
  ⟨d.content, d.file_path, d.start_line, d.end_line, d.chunk_type, d.language,
   d.size, d.hash_id, d.metadata, d.embedding⟩

/-! ## Pattern-based chunking (`SmartCodeChunker.extract_regex_chunks`)

The chunker is parametric in `hashF`, the model of
`hashlib.md5(content.encode()).hexdigest()` (an external, deterministic
digest whose concrete value no claim depends on). -/

/-- Metadata written for an ordinary pattern-based chunk. -/
def regexMeta : ChunkMeta := { extractedBy := some "regex" }

/-- Metadata written for a forced size split. -/
def regexSplitMeta : ChunkMeta :=
  { extractedBy := some "regex", splitReason := some "size_limit" }

/-- Build a pattern-based chunk exactly as the `CodeChunk(...)` constructor
calls do: `size = len(chunk_content)`, `hash_id = md5(...)`. -/
def mkRegexChunk (hashF : String → String) (filePath lang : String)
    (chunkContent : String) (startL endL : Nat) (ctype : String)
    (meta : ChunkMeta) : CodeChunk :=
  { content := chunkContent, file_path := filePath, start_line := startL,
    end_line := endL, chunk_type := ctype, language := lang,
    size := chunkContent.length, hash_id := hashF chunkContent,
    metadata := meta, embedding := none }

/-- The loop state of `extract_regex_chunks`: the emitted chunks, the running
buffer `current_chunk`, `current_start` and `current_type`. -/
structure RegexState where
  chunks : List CodeChunk
  buffer : List String
  start : Nat
  ctype : String
deriving DecidableEq, Repr

/-- The marker-boundary half of one iteration of the
`for i, line in enumerate(lines, 1)` loop of `extract_regex_chunks`: when the
line is a function/class marker and the buffer is non-empty, emit the buffer
as one chunk provided its stripped text reaches `min_chunk_size`, and start a
new buffer at the current line; otherwise append the line to the buffer
(promoting `current_type` out of `'mixed'` on the first classified line). -/
def markerPhase (hashF : String → String) (filePath lang : String)
    (minC : Nat) (patterns : List (String × (String → Bool)))
    (st : RegexState) (i : Nat) (line : String) : RegexState :=
  if (lineTypeOf patterns line = "function" ∨ lineTypeOf patterns line = "class")
      ∧ st.buffer ≠ [] then
    { chunks :=
        if minC ≤ (pyTrim (joinNl st.buffer)).length then
          st.chunks ++ [mkRegexChunk hashF filePath lang (joinNl st.buffer)
            st.start (i - 1) st.ctype regexMeta]
        else st.chunks,
      buffer := [line], start := i, ctype := lineTypeOf patterns line }
  else
    { st with
      buffer := st.buffer ++ [line],
      ctype :=
        if lineTypeOf patterns line ≠ "code" ∧ st.ctype = "mixed" then
          lineTypeOf patterns line
        else st.ctype }

/-- The size-split half of one loop iteration: when the serialized buffer
exceeds `max_chunk_size`, force-emit it as a `size_limit` chunk and restart
the buffer with the `overlap_size // 20` last lines copied forward. -/
def splitPhase (hashF : String → String) (filePath lang : String)
    (maxC ovC : Nat) (st1 : RegexState) (i : Nat) : RegexState :=
  if maxC < (joinNl st1.buffer).length then
    { chunks := st1.chunks ++ [mkRegexChunk hashF filePath lang
        (joinNl st1.buffer) st1.start i st1.ctype regexSplitMeta],
      buffer := pyTakeLast st1.buffer (ovC / 20),
      start := i + 1 - (pyTakeLast st1.buffer (ovC / 20)).length,
      ctype := "mixed" }
  else st1

/-- One full iteration of the loop body of `extract_regex_chunks`. -/
def regexStep (hashF : String → String) (filePath lang : String)
    (maxC ovC minC : Nat) (patterns : List (String × (String → Bool)))
    (st : RegexState) (il : Nat × String) : RegexState :=
  splitPhase hashF filePath lang maxC ovC
    (markerPhase hashF filePath lang minC patterns st il.1 il.2) il.1

/-- The loop state after the whole `enumerate(lines, 1)` fold. -/
def regexFinal (hashF : String → String) (maxC ovC minC : Nat)
    (content filePath : String) : RegexState :=
  (List.enumFrom 1 (pySplitLines content)).foldl
    (regexStep hashF filePath (detectLanguage filePath) maxC ovC minC
      (languagePatterns (detectLanguage filePath)))
    ⟨[], [], 1, "mixed"⟩

/-- Model of `SmartCodeChunker.extract_regex_chunks(content, file_path)` with
chunker configuration `(maxC, ovC, minC)` =
`(max_chunk_size, overlap_size, min_chunk_size)`: run the loop, then emit the
remaining buffer when it is non-empty and its stripped text reaches
`min_chunk_size`. -/
def extractRegexChunks (hashF : String → String) (maxC ovC minC : Nat)
    (content filePath : String) : List CodeChunk :=
  if (regexFinal hashF maxC ovC minC content filePath).buffer ≠ [] then
    if minC ≤ (pyTrim (joinNl (regexFinal hashF maxC ovC minC content
        filePath).buffer)).length then
      (regexFinal hashF maxC ovC minC content filePath).chunks ++
        [mkRegexChunk hashF filePath (detectLanguage filePath)
          (joinNl (regexFinal hashF maxC ovC minC content filePath).buffer)
          (regexFinal hashF maxC ovC minC content filePath).start
          (pySplitLines content).length
          (regexFinal hashF maxC ovC minC content filePath).ctype regexMeta]
    else (regexFinal hashF maxC ovC minC content filePath).chunks
  else (regexFinal hashF maxC ovC minC content filePath).chunks

/-! ## Structural (AST) chunking (`SmartCodeChunker.extract_ast_chunks`)

CPython's parser is external; it is modelled as a function
`astParse : String -> PyParseResult` giving, per source text, either the
`FunctionDef` / `AsyncFunctionDef` / `ClassDef` nodes collected by
`ast.walk`, or the exception `ast.parse` raised. -/

/-- The node kinds `extract_ast_chunks` selects from `ast.walk`. -/
inductive AstKind where
  | funcDef
  | asyncFuncDef
  | classDef
deriving DecidableEq, Repr

/-- One syntax-tree node as used by `extract_ast_chunks`: `node.lineno`,
`getattr(node, 'end_lineno', ...)` (absent or `None` modelled as `none`),
`node.name` and `ast.get_docstring(node)`. -/
structure PyAstNode where
  kind : AstKind
  nodeName : String
  lineno : Nat
  endLineno : Option Nat
  docstring : Option String
deriving DecidableEq, Repr

/-- Outcome of `ast.parse(content)`: the relevant nodes in walk order, a
`SyntaxError` (the only exception class the source catches), or an exception
of any other class (e.g. `ValueError` for null bytes on CPython < 3.12,
`RecursionError` for deeply nested sources). -/
inductive PyParseResult where
  | parsed (nodes : List PyAstNode)
  | syntaxErr
  | otherExc (msg : String)
deriving DecidableEq, Repr

/-- Build one structural chunk exactly as the loop body does:
`lines[start_line-1:end_line]` joined by newlines, `chunk_type` from the node
kind, `size = len(chunk_content)` and the `name`/`type`/`docstring`
metadata. -/
def mkAstChunk (hashF : String → String) (content filePath : String)
    (node : PyAstNode) : CodeChunk :=
  let startL := node.lineno
  let endL := node.endLineno.getD startL
  let lines := pySplitLines content
  let chunkContent := joinNl (sliceLines lines startL endL)
  let ctype :=
    match node.kind with
    | .classDef => "class"
    | _ => "function"
  { content := chunkContent, file_path := filePath, start_line := startL,
    end_line := endL, chunk_type := ctype, language := "python",
    size := chunkContent.length, hash_id := hashF chunkContent,
    metadata := { nameKey := some node.nodeName, typeKey := some ctype,
                  docstringKey := some node.docstring },
    embedding := none }

/-- Model of `SmartCodeChunker.extract_ast_chunks(content, file_path)`.  Only
`SyntaxError` is caught (yielding zero chunks with a warning); any other
exception class propagates, which the `Except` error constructor records. -/
def extractAstChunks (astParse : String → PyParseResult)
    (hashF : String → String) (content filePath : String) :
    Except String (List CodeChunk) :=
  if detectLanguage filePath = "python" then
    match astParse content with
    | .parsed nodes => .ok (nodes.map (mkAstChunk hashF content filePath))
    | .syntaxErr => .ok []
    | .otherExc msg => .error msg
  else .ok []

/-- Model of `SmartCodeChunker.chunk_file(file_path, content)`: structural
extraction for Python when it yields chunks, the pattern strategy otherwise;
an uncaught structural-parser exception propagates. -/
def chunkFile (astParse : String → PyParseResult) (hashF : String → String)
    (maxC ovC minC : Nat) (filePath content : String) :
    Except String (List CodeChunk) :=
  if detectLanguage filePath = "python" then
    match extractAstChunks astParse hashF content filePath with
    | .error e => .error e
    | .ok [] => .ok (extractRegexChunks hashF maxC ovC minC content filePath)
    | .ok (c :: cs) => .ok (c :: cs)
  else .ok (extractRegexChunks hashF maxC ovC minC content filePath)

/-! ## Embedding generation (`GitHubRAGPipeline._generate_embeddings`)

The sentence transformer is external and deterministic per text; its
`encode` on a batch is modelled as mapping `encode : String -> List Rat`
over the batch. -/

/-- The rich text representation built for each chunk before embedding:
repository identity, file path, chunk type, language, the symbol name when
`metadata.get('name')` is truthy, then the raw content.  `repoFullName`
models `self.repo_info.get('full_name', 'Unknown')`. -/
def buildEmbedText (repoFullName : Option String) (c : CodeChunk) : String :=
  "Repository: " ++ repoFullName.getD "Unknown" ++ "\n" ++
  "File: " ++ c.file_path ++ "\n" ++
  "Type: " ++ c.chunk_type ++ "\n" ++
  "Language: " ++ c.language ++ "\n" ++
  (match c.metadata.nameKey with
   | some n => if n = "" then "" else "Name: " ++ n ++ "\n"
   | none => "") ++
  "Content:\n" ++ c.content

/-- The chunk with its embedding slot filled. -/
def withEmbedding (c : CodeChunk) (e : List Rat) : CodeChunk :=
  { c with embedding := some e }

/-- In-place update `self.chunks[k].embedding = e`. -/
def setEmb (k : Nat) (e : List Rat) : List CodeChunk → List CodeChunk
  | [] => []
  | c :: cs =>
    match k with
    | 0 => withEmbedding c e :: cs
    | k + 1 => c :: setEmb k e cs

/-- The inner `for j, embedding in enumerate(batch_embeddings)` loop: write
the batch results back at absolute indices `i + j`. -/
def writeBatch (i : Nat) : List (List Rat) → List CodeChunk → List CodeChunk
  | [], cs => cs
  | e :: es, cs => writeBatch (i + 1) es (setEmb i e cs)

/-- The outer `for i in range(0, len(texts), batch_size)` loop with
`batch_size = 32`: embed the next batch (`model.encode` maps the text
encoder over the batch) and write the vectors back at indices `i + j`. -/
def genLoop (encode : String → List Rat) :
    List String → Nat → List CodeChunk → List CodeChunk
  | [], _, cs => cs
  | t :: ts, i, cs =>
    genLoop encode ((t :: ts).drop 32) (i + ((t :: ts).take 32).length)
      (writeBatch i (((t :: ts).take 32).map encode) cs)
termination_by ts _ _ => ts.length
decreasing_by
  simp only [List.length_drop, List.length_cons]
  omega

/-- Model of `GitHubRAGPipeline._generate_embeddings` (with the embedding
model available): build the texts, then embed in batches of 32, writing each
vector back into its chunk's slot by index. -/
def generateEmbeddings (encode : String → List Rat) (repoFullName : Option String)
    (chunks : List CodeChunk) : List CodeChunk :=
  genLoop encode (chunks.map (buildEmbedText repoFullName)) 0 chunks

/-! ## The FAISS index model

`faiss.IndexFlatIP` is external; `faissSearch` models its documented
behaviour: exhaustive inner products against all stored rows, the `top_k`
best scores in descending order (ties by lower row id), and, when `top_k`
exceeds `ntotal`, padding of the missing slots with id `-1` and the heap's
`-infinity` sentinel distance (`faissNegInf` stands in for a value below
every attainable score, `Rat` having no infinities).
`faiss.normalize_L2` involves a square root, so normalization enters as an
explicit function parameter `normalize`. -/

/-- Inner product of two stored vectors. -/
def dotRat (a b : List Rat) : Rat :=
  (List.zipWith (fun x y => x * y) a b).sum

/-- Comparison placing higher scores first and, among equal scores, lower row
ids first. -/
def hitLE (a b : Int × Rat) : Bool :=
  decide (b.2 < a.2) || ((a.2 == b.2) && decide (a.1 ≤ b.1))

/-- Insertion into a list sorted by `hitLE`. -/
def insertHit (a : Int × Rat) : List (Int × Rat) → List (Int × Rat)
  | [] => [a]
  | b :: rest => if hitLE a b then a :: b :: rest else b :: insertHit a rest

/-- Sort by descending score, ties by ascending row id. -/
def sortHits : List (Int × Rat) → List (Int × Rat)
  | [] => []
  | a :: rest => insertHit a (sortHits rest)

/-- Stand-in for the `-infinity` / most-negative-float padding distance FAISS
reports for missing result slots. -/
def faissNegInf : Rat := -(2 ^ 127 : Rat)

/-- Model of `index.search(query, k)` for a flat inner-product index: `k`
`(id, score)` pairs, the missing slots padded with id `-1`. -/
def faissSearch (rows : List (List Rat)) (q : List Rat) (k : Nat) :
    List (Int × Rat) :=
  let scored := rows.enum.map (fun p => ((p.1 : Int), dotRat p.2 q))
  let top := (sortHits scored).take k
  top ++ List.replicate (k - top.length) (-1, faissNegInf)

/-- The built index: the stored (normalized) rows; `ntotal = rows.length`. -/
structure FaissIndex where
  rows : List (List Rat)
deriving DecidableEq, Repr

/-- Model of `GitHubRAGPipeline._build_faiss_index`: collect the embeddings of
the chunks that have one, return no index when there are none
(`"No embeddings available"`), otherwise normalize and store them. -/
def buildFaissIndex (normalize : List Rat → List Rat)
    (chunks : List CodeChunk) : Option FaissIndex :=
  let embeddings := chunks.filterMap (fun c => c.embedding)
  if embeddings.isEmpty then none
  else some ⟨embeddings.map normalize⟩

/-! ## Search (`GitHubRAGPipeline.search`) -/

/-- The pipeline state `search` reads: `self.chunks` and `self.index`. -/
structure RagPipeline where
  chunks : List CodeChunk
  index : Option FaissIndex
deriving Repr

/-- Model of the Python indexing expression `chunks[idx]` for a possibly
negative `idx`: negative indices wrap from the end; an out-of-range index is
an `IndexError`, modelled as `none`. -/
def pyGetInt (l : List CodeChunk) (i : Int) : Option CodeChunk :=
  if 0 ≤ i then l.get? i.toNat
  else if (-i).toNat ≤ l.length then l.get? (l.length - (-i).toNat)
  else none

/-- The result loop of `search`: keep `(chunks[idx], score)` for every hit
with `idx < len(chunks)` (the only guard in the source), in hit order. -/
def collectResults (chunks : List CodeChunk) :
    List (Int × Rat) → Except String (List (CodeChunk × Rat))
  | [] => .ok []
  | h :: rest =>
    if h.1 < (chunks.length : Int) then
      match pyGetInt chunks h.1 with
      | some c => (collectResults chunks rest).map (fun rs => (c, h.2) :: rs)
      | none => .error "IndexError: list index out of range"
    else collectResults chunks rest

/-- Model of `GitHubRAGPipeline.search(query, top_k)` (with the embedding
model available): no index means `[]`; otherwise embed and normalize the
query, run the FAISS search and collect the guarded results. -/
def searchPipeline (encode : String → List Rat)
    (normalize : List Rat → List Rat) (st : RagPipeline) (query : String)
    (topK : Nat) : Except String (List (CodeChunk × Rat)) :=
  match st.index with
  | none => .ok []
  | some idx =>
    collectResults st.chunks (faissSearch idx.rows (normalize (encode query)) topK)

/-! ## Cache store and `process_repository` -/

/-- One on-disk cache entry under a repository identity: the pickled
`to_dict` chunk records and the written FAISS index (whose file round trip
is modelled as exact storage). -/
structure CacheEntry where
  chunkData : List SerializedChunk
  savedIndex : Option FaissIndex
deriving DecidableEq, Repr

/-- The cache directory contents, keyed by repository identity (the
`owner_repo`-derived cache path). -/
abbrev CacheStore := List (String × CacheEntry)

/-- The empty cache directory. -/
def emptyStore : CacheStore := []

/-- Model of `_save_cache` for a given identity: overwrite any prior entry. -/
def saveCache (ident : String) (chunks : List CodeChunk)
    (idx : Option FaissIndex) (store : CacheStore) : CacheStore :=
  (ident, ⟨chunks.map CodeChunk.toDict, idx⟩) ::
    store.filter (fun p => p.1 ≠ ident)

/-- Model of reading the cache entry for an identity. -/
def loadCache (ident : String) (store : CacheStore) : Option CacheEntry :=
  (store.find? (fun p => p.1 = ident)).map (fun p => p.2)

/-- Model of `_load_or_build_index`: use the saved FAISS index when its file
exists and loads, otherwise build a fresh one from the chunks. -/
def loadOrBuildIndex (normalize : List Rat → List Rat)
    (savedIndex : Option FaissIndex) (chunks : List CodeChunk) :
    Option FaissIndex :=
  match savedIndex with
  | some idx => some idx
  | none => buildFaissIndex normalize chunks

/-- The rebuild stage of `process_repository`: chunk every extracted file,
isolating per-file `chunk_file` failures with a warning. -/
def rebuildChunks (astParse : String → PyParseResult) (hashF : String → String)
    (maxC ovC minC : Nat) (files : List (String × String)) : List CodeChunk :=
  files.foldl
    (fun acc fc =>
      match chunkFile astParse hashF maxC ovC minC fc.1 fc.2 with
      | .ok cs => acc ++ cs
      | .error _ => acc)
    []

/-- Model of `GitHubRAGPipeline.process_repository(force_rebuild)`.
`cacheState` reflects the chunks cache file: `none` when absent,
`some (.error e)` when opening/unpickling/`from_dict` raised (the
`except Exception` arm), `some (.ok data)` on success.  The result is the
final pipeline state paired with a flag telling whether it was served from
the cache; a full rebuild chunks the extracted files, generates embeddings
and builds a fresh index. -/
def processRepository (encode : String → List Rat)
    (normalize : List Rat → List Rat) (repoFullName : Option String)
    (astParse : String → PyParseResult) (hashF : String → String)
    (maxC ovC minC : Nat) (force : Bool)
    (cacheState : Option (Except String (List SerializedChunk)))
    (savedIndex : Option FaissIndex) (files : List (String × String)) :
    RagPipeline × Bool :=
  match force, cacheState with
  | false, some (.ok data) =>
    let chunks := data.map SerializedChunk.fromDict
    (⟨chunks, loadOrBuildIndex normalize savedIndex chunks⟩, true)
  | _, _ =>
    let chunks := rebuildChunks astParse hashF maxC ovC minC files
    let embedded := generateEmbeddings encode repoFullName chunks
    (⟨embedded, buildFaissIndex normalize embedded⟩, false)

/-! ## Proof-support definitions -/

/-- Sequential (batch-free) write-back of per-text embeddings from position
`i` on; the batched `genLoop` is proved equal to it below. -/
def writeSeq (encode : String → List Rat) (i : Nat) :
    List String → List CodeChunk → List CodeChunk
  | [], cs => cs
  | t :: ts, cs => writeSeq encode (i + 1) ts (setEmb i (encode t) cs)

/-- The location/size invariant every pattern-based chunk satisfies: one-based
in-range inclusive lines, content equal to the newline-join of exactly those
lines, and `size` equal to the code-point length of the content. -/
def ChunkInv (lines : List String) (c : CodeChunk) : Prop :=
  1 ≤ c.start_line ∧ c.start_line ≤ c.end_line ∧ c.end_line ≤ lines.length ∧
  c.content = joinNl (sliceLines lines c.start_line c.end_line) ∧
  c.size = c.content.length

/-- The loop invariant of `extract_regex_chunks` after `k` processed lines:
the running buffer is exactly the slice of lines from `current_start` to `k`,
and every emitted chunk satisfies `ChunkInv`. -/
def StInv (lines : List String) (st : RegexState) (k : Nat) : Prop :=
  1 ≤ st.start ∧ st.start ≤ k + 1 ∧
  st.buffer = sliceLines lines st.start k ∧
  ∀ c ∈ st.chunks, ChunkInv lines c

/-- Chunk `b` starts with a piece that chunk `a` ends with (the overlap copied
forward by the size-split logic). -/
def Overlaps (a b : CodeChunk) : Prop :=
  ∃ ov p s, a.content = p ++ ov ∧ b.content = ov ++ s

/-- Every adjacent pair of emitted chunks overlaps. -/
def PairsOk (cs : List CodeChunk) : Prop :=
  ∀ j a b, cs.get? j = some a → cs.get? (j + 1) = some b → Overlaps a b

/-- The running buffer starts with a line that the most recently emitted chunk
ends with. -/
def LastLink (st : RegexState) : Prop :=
  ∀ c, st.chunks.getLast? = some c →
    ∃ ov rest p, st.buffer = ov :: rest ∧ c.content = p ++ ov

/-- The loop invariant backing the size/overlap analysis of the pattern
chunker with `overlap_size = 20` (one overlap line) on a file whose
function/class markers can only sit on line 1: the serialized buffer never
exceeds `max_chunk_size` at an iteration boundary, every emitted chunk stays
within `2 * max_chunk_size + 1` code points, adjacent chunks overlap, and the
buffer is linked to the last chunk. -/
def SplitInv (maxC : Nat) (st : RegexState) (k : Nat) : Prop :=
  (k = 0 → st.buffer = []) ∧
  (joinNl st.buffer).length ≤ maxC ∧
  (∀ c ∈ st.chunks, c.content.length ≤ 2 * maxC + 1) ∧
  PairsOk st.chunks ∧ LastLink st

/-- The last line of a chunk's content, under Python's `split('\n')`. -/
def lastLineOf (s : String) : String :=
  (pySplitLines s).getLastD ""

/-! ## Concrete inputs for the counterexamples and witnesses -/

/-- Stand-in digest function for concrete evaluations; no claim depends on
digest values, and the general theorems quantify over the digest function. -/
def trivialHash : String → String := fun _ => ""

/-- A well-formed Python source: one two-line function. -/
def calcContent : String := "def add(a, b):\n    return a + b"

/-- Model of CPython's `ast.parse` on `calcContent`: a single `FunctionDef`
named `add` spanning lines 1-2 with no docstring (and a `SyntaxError` on any
other source, which is irrelevant to its uses below). -/
def calcParse : String → PyParseResult := fun s =>
  if s = calcContent then .parsed [⟨.funcDef, "add", 1, some 2, none⟩]
  else .syntaxErr

/-- Model of CPython's `ast.parse` (before 3.12) on a source containing a null
byte: it raises `ValueError`, not `SyntaxError`, and only the latter is
caught by `extract_ast_chunks`. -/
def nullByteParse : String → PyParseResult := fun _ =>
  .otherExc "ValueError: source code string cannot contain null bytes"

/-- The chunk produced by structural extraction of `calcContent`. -/
def calcChunk : CodeChunk :=
  mkAstChunk trivialHash calcContent "calc.py" ⟨.funcDef, "add", 1, some 2, none⟩

/-- A chunk carrying an embedding, for the search/index examples. -/
def addChunk : CodeChunk :=
  { content := "def add(a, b):\n    return a + b", file_path := "calc.py",
    start_line := 1, end_line := 2, chunk_type := "function",
    language := "python", size := 31, hash_id := "h0",
    metadata := { nameKey := some "add" }, embedding := some [1] }

/-- A pipeline whose index holds exactly one vector (for `addChunk`). -/
def onePipeline : RagPipeline :=
  { chunks := [addChunk], index := buildFaissIndex (fun v => v) [addChunk] }

/-- A chunk that never received an embedding. -/
def bareChunk : CodeChunk :=
  { content := "# orphaned configuration notes", file_path := "conf.py",
    start_line := 1, end_line := 1, chunk_type := "comment",
    language := "python", size := 30, hash_id := "h1",
    metadata := { extractedBy := some "regex" }, embedding := none }

/-- A chunk with a two-dimensional embedding. -/
def vecChunk : CodeChunk :=
  { content := "def scale(v):\n    return 2 * v", file_path := "vec.py",
    start_line := 4, end_line := 5, chunk_type := "function",
    language := "python", size := 30, hash_id := "h2",
    metadata := { nameKey := some "scale" }, embedding := some [1, 0] }

/-- A JavaScript file whose first non-trivial buffer at a marker boundary is
shorter than `min_chunk_size`. -/
def pluginContent : String :=
  "var x = 1;\nfunction f() \x7b\n  return veryImportantValue + anotherValue;\n\x7d"

/-- A 500-code-point JavaScript file holding a single function whose body
lines are all well under 100 characters. -/
def ledgerContent : String :=
  "function renderLedger(entries) \x7b\n" ++
  "  const rows = [];\n" ++
  "  for (const item of entries) \x7b\n" ++
  "    rows.push(item.label + String(item.amount));\n" ++
  "    rows.push(item.currency + item.note);\n" ++
  "  \x7d\n" ++
  "  rows.sort(0);\n" ++
  "  const header = makeHeader(entries.length);\n" ++
  "  const footer = makeFooter(rows, extra);\n" ++
  "  // tally each entry against the running audit total\n" ++
  "  const banner = buildBanner(header, footer);\n" ++
  "  rows.push(banner + header + footer + tail);\n" ++
  "  rows.push(stampRow(banner, rows.sort));\n" ++
  "  return rows.join(newline);\n" ++
  "\x7d"

/-- A one-line Go file containing a non-ASCII character (so its UTF-8 byte
length differs from its code-point length). -/
def cafeContent : String :=
  "const caféGreeting = \"Bonjour! Welcome to the code base.\""

/-! ## Helper lemmas: joins, overlap slices, line slices -/

theorem joinNl_cons_ne_nil (s : String) (r : List String) (h : r ≠ []) :
    joinNl (s :: r) = s ++ "\n" ++ joinNl r := by
  cases r with
  | nil => exact absurd rfl h
  | cons t ts => rfl

theorem joinNl_concat (xs : List String) (x : String) :
    joinNl (xs ++ [x]) = if xs = [] then x else joinNl xs ++ "\n" ++ x := by
  induction xs with
  | nil => simp [joinNl]
  | cons a as ih =>
    cases as with
    | nil => simp [joinNl]
    | cons b bs =>
      rw [List.cons_append, joinNl_cons_ne_nil _ _ (by simp),
        joinNl_cons_ne_nil _ _ (by simp), ih]
      simp [String.append_assoc]

theorem joinNl_concat_length (xs : List String) (x : String) :
    (joinNl (xs ++ [x])).length ≤ (joinNl xs).length + 1 + x.length := by
  rw [joinNl_concat]
  split
  · simp [joinNl]
  · simp only [String.length_append]
    have : ("\n" : String).length = 1 := rfl
    omega

theorem pyTakeLast_suffix (l : List String) (k : Nat) :
    ∃ m, m ≤ l.length ∧ pyTakeLast l k = l.drop m := by
  by_cases h1 : l.length > k
  · by_cases h2 : k = 0
    · exact ⟨0, Nat.zero_le _, by simp [pyTakeLast, h1, h2]⟩
    · exact ⟨l.length - k, Nat.sub_le _ _, by simp [pyTakeLast, h1, h2]⟩
  · exact ⟨0, Nat.zero_le _, by simp [pyTakeLast, h1]⟩

theorem pyTakeLast_ne_nil (l : List String) (k : Nat) (h : l ≠ []) :
    pyTakeLast l k ≠ [] := by
  by_cases h1 : l.length > k
  · by_cases h2 : k = 0
    · simpa [pyTakeLast, h1, h2] using h
    · simp only [pyTakeLast, if_pos h1, if_neg h2]
      rw [Ne, List.drop_eq_nil_iff]
      omega
  · simpa [pyTakeLast, h1] using h

theorem pyTakeLast_concat_one (xs : List String) (x : String) :
    pyTakeLast (xs ++ [x]) 1 = [x] := by
  cases xs with
  | nil => simp [pyTakeLast]
  | cons a as =>
    have hl : (a :: as ++ [x]).length > 1 := by simp
    have hlen : (a :: as ++ [x]).length - 1 = (a :: as).length := by simp
    simp only [pyTakeLast, if_pos hl, if_neg (by omega : ¬(1 : Nat) = 0)]
    rw [hlen, show a :: as ++ [x] = (a :: as) ++ [x] from rfl, List.drop_left]

theorem sliceLines_start_nil (lines : List String) :
    sliceLines lines 1 0 = [] := by
  simp [sliceLines]

theorem sliceLines_snoc (lines : List String) (a k : Nat) (line : String)
    (hget : lines.get? k = some line) (ha : a ≤ k + 1) :
    sliceLines lines a k ++ [line] = sliceLines lines a (k + 1) := by
  rw [List.get?_eq_getElem?] at hget
  have hk : k < lines.length := (List.getElem?_eq_some_iff.mp hget).1
  unfold sliceLines
  rw [List.take_succ, hget, Option.toList_some,
    List.drop_append_of_le_length (by simp [List.length_take]; omega)]

theorem sliceLines_single (lines : List String) (k : Nat) (line : String)
    (hget : lines.get? k = some line) :
    sliceLines lines (k + 1) (k + 1) = [line] := by
  have h0 : sliceLines lines (k + 1) k = [] := by
    apply List.drop_eq_nil_of_le
    simp [List.length_take]
  have h1 := sliceLines_snoc lines (k + 1) k line hget (by omega)
  rw [h0] at h1
  simpa using h1.symm

theorem sliceLines_drop (lines : List String) (a b m : Nat) (ha : 1 ≤ a) :
    (sliceLines lines a b).drop m = sliceLines lines (a + m) b := by
  unfold sliceLines
  rw [List.drop_drop]
  congr 1
  omega

theorem sliceLines_length (lines : List String) (a b : Nat) :
    (sliceLines lines a b).length = min b lines.length - (a - 1) := by
  simp [sliceLines, List.length_drop, List.length_take]

theorem sliceLines_mem (lines : List String) (a b : Nat) (l : String)
    (h : l ∈ sliceLines lines a b) : l ∈ lines := by
  unfold sliceLines at h
  exact List.mem_of_mem_take (List.mem_of_mem_drop h)

/-- Generic invariant lemma for the `for i, line in enumerate(lines, 1)`
fold. -/
theorem foldl_enum_inv {σ : Type} (f : σ → Nat × String → σ) (P : σ → Nat → Prop)
    (lines : List String)
    (hstep : ∀ st k line, lines.get? k = some line → P st k →
      P (f st (k + 1, line)) (k + 1)) :
    ∀ (suf : List String) (k : Nat) (st : σ), lines.drop k = suf → P st k →
      P (List.foldl f st (List.enumFrom (k + 1) suf)) (k + suf.length) := by
  intro suf
  induction suf with
  | nil => intro k st _ h; simpa using h
  | cons l rest ih =>
    intro k st hdrop hP
    have hget : lines.get? k = some l := by
      have h0 : (lines.drop k).get? 0 = some l := by rw [hdrop]; rfl
      rw [List.get?_eq_getElem?] at h0 ⊢
      rw [List.getElem?_drop] at h0
      simpa using h0
    have hdrop' : lines.drop (k + 1) = rest := by
      rw [← List.tail_drop, hdrop]; rfl
    have h1 := hstep st k l hget hP
    have h2 := ih (k + 1) (f st (k + 1, l)) hdrop' h1
    simp only [List.enumFrom, List.foldl, List.length_cons]
    have harith : k + 1 + rest.length = k + (rest.length + 1) := by omega
    rw [← harith]
    exact h2

/-- The fold invariant instantiated at the start of the enumeration. -/
theorem foldl_enum_inv_full {σ : Type} (f : σ → Nat × String → σ)
    (P : σ → Nat → Prop) (lines : List String) (st0 : σ)
    (hstep : ∀ st k line, lines.get? k = some line → P st k →
      P (f st (k + 1, line)) (k + 1))
    (hinit : P st0 0) :
    P (List.foldl f st0 (List.enumFrom 1 lines)) lines.length := by
  have := foldl_enum_inv f P lines hstep lines 0 st0 (by simp) hinit
  simpa using this

/-! ## The location invariant of the pattern chunker -/

theorem buffer_ne_nil_start_le (lines : List String) (st : RegexState) (k : Nat)
    (hbuf : st.buffer = sliceLines lines st.start k) (hne : st.buffer ≠ []) :
    st.start ≤ k := by
  have hlen : st.buffer.length ≠ 0 := fun h => hne (List.eq_nil_of_length_eq_zero h)
  rw [hbuf, sliceLines_length] at hlen
  omega

theorem markerPhase_StInv (hashF : String → String) (fp lang : String)
    (minC : Nat) (patterns : List (String × (String → Bool)))
    (lines : List String) (st : RegexState) (k : Nat) (line : String)
    (hget : lines.get? k = some line) (hinv : StInv lines st k) :
    StInv lines (markerPhase hashF fp lang minC patterns st (k + 1) line) (k + 1) := by
  obtain ⟨hs1, hs2, hbuf, hch⟩ := hinv
  have hk : k < lines.length := by
    rw [List.get?_eq_getElem?] at hget
    exact (List.getElem?_eq_some_iff.mp hget).1
  by_cases hcond : (lineTypeOf patterns line = "function" ∨
      lineTypeOf patterns line = "class") ∧ st.buffer ≠ []
  · rw [markerPhase, if_pos hcond]
    refine ⟨?_, ?_, ?_, ?_⟩
    · dsimp only; omega
    · dsimp only; omega
    · dsimp only
      exact (sliceLines_single lines k line hget).symm
    · dsimp only
      intro c hc
      by_cases hmin : minC ≤ (pyTrim (joinNl st.buffer)).length
      · rw [if_pos hmin] at hc
        rcases List.mem_append.mp hc with hold | hnew
        · exact hch c hold
        · have hcc : c = mkRegexChunk hashF fp lang (joinNl st.buffer) st.start
              ((k + 1) - 1) st.ctype regexMeta := by simpa using hnew
          subst hcc
          have hle : st.start ≤ k := buffer_ne_nil_start_le lines st k hbuf hcond.2
          refine ⟨?_, ?_, ?_, ?_, ?_⟩ <;> dsimp only [mkRegexChunk]
          · exact hs1
          · omega
          · omega
          · rw [hbuf]
            congr 1
      · rw [if_neg hmin] at hc
        exact hch c hc
  · rw [markerPhase, if_neg hcond]
    refine ⟨?_, ?_, ?_, ?_⟩ <;> dsimp only
    · exact hs1
    · omega
    · rw [hbuf]
      exact sliceLines_snoc lines st.start k line hget hs2
    · exact hch

theorem splitPhase_StInv (hashF : String → String) (fp lang : String)
    (maxC ovC : Nat) (lines : List String) (st1 : RegexState) (k : Nat)
    (hkn : k + 1 ≤ lines.length) (hinv : StInv lines st1 (k + 1)) :
    StInv lines (splitPhase hashF fp lang maxC ovC st1 (k + 1)) (k + 1) := by
  obtain ⟨hs1, hs2, hbuf, hch⟩ := hinv
  by_cases hcond : maxC < (joinNl st1.buffer).length
  · have hbne : st1.buffer ≠ [] := by
      intro h
      rw [h] at hcond
      simp [joinNl] at hcond
    have hle : st1.start ≤ k + 1 := buffer_ne_nil_start_le lines st1 (k + 1) hbuf hbne
    obtain ⟨m, hm, hov⟩ := pyTakeLast_suffix st1.buffer (ovC / 20)
    have hblen : st1.buffer.length = k + 2 - st1.start := by
      rw [hbuf, sliceLines_length]
      omega
    have hovlen : (pyTakeLast st1.buffer (ovC / 20)).length =
        (k + 2 - st1.start) - m := by
      rw [hov, List.length_drop, hblen]
    rw [splitPhase, if_pos hcond]
    refine ⟨?_, ?_, ?_, ?_⟩ <;> dsimp only
    · rw [hovlen]; omega
    · rw [hovlen]; omega
    · rw [hovlen, hov, hbuf, sliceLines_drop lines st1.start (k + 1) m hs1]
      congr 1
      rw [hblen] at hm
      omega
    · intro c hc
      rcases List.mem_append.mp hc with hold | hnew
      · exact hch c hold
      · have hcc : c = mkRegexChunk hashF fp lang (joinNl st1.buffer) st1.start
            (k + 1) st1.ctype regexSplitMeta := by simpa using hnew
        subst hcc
        refine ⟨?_, ?_, ?_, ?_, ?_⟩ <;> dsimp only [mkRegexChunk]
        · exact hs1
        · omega
        · omega
        · rw [hbuf]
  · rw [splitPhase, if_neg hcond]
    exact ⟨hs1, hs2, hbuf, hch⟩

theorem regexStep_StInv (hashF : String → String) (fp lang : String)
    (maxC ovC minC : Nat) (patterns : List (String × (String → Bool)))
    (lines : List String) (st : RegexState) (k : Nat) (line : String)
    (hget : lines.get? k = some line) (hinv : StInv lines st k) :
    StInv lines (regexStep hashF fp lang maxC ovC minC patterns st (k + 1, line))
      (k + 1) := by
  have hk : k < lines.length := by
    rw [List.get?_eq_getElem?] at hget
    exact (List.getElem?_eq_some_iff.mp hget).1
  exact splitPhase_StInv hashF fp lang maxC ovC lines _ k (by omega)
    (markerPhase_StInv hashF fp lang minC patterns lines st k line hget hinv)

theorem regexFinal_StInv (hashF : String → String) (maxC ovC minC : Nat)
    (content fp : String) :
    StInv (pySplitLines content) (regexFinal hashF maxC ovC minC content fp)
      (pySplitLines content).length := by
  apply foldl_enum_inv_full
  · intro st k line hget hP
    exact regexStep_StInv hashF fp (detectLanguage fp) maxC ovC minC
      (languagePatterns (detectLanguage fp)) (pySplitLines content) st k line hget hP
  · refine ⟨Nat.le_refl 1, Nat.le_refl 1, ?_, ?_⟩
    · exact (sliceLines_start_nil _).symm
    · intro c hc
      exact absurd hc (List.not_mem_nil c)

/-- Every pattern-based chunk reports its location faithfully: one-based
in-range inclusive lines, content equal to the newline-join of exactly those
lines of the input, and `size` equal to the content's code-point length. -/
theorem extractRegexChunks_ChunkInv (hashF : String → String)
    (maxC ovC minC : Nat) (content fp : String) :
    ∀ c ∈ extractRegexChunks hashF maxC ovC minC content fp,
      ChunkInv (pySplitLines content) c := by
  intro c hc
  have hfin := regexFinal_StInv hashF maxC ovC minC content fp
  obtain ⟨hs1, hs2, hbuf, hch⟩ := hfin
  unfold extractRegexChunks at hc
  by_cases hne : (regexFinal hashF maxC ovC minC content fp).buffer ≠ []
  · rw [if_pos hne] at hc
    by_cases hmin : minC ≤ (pyTrim (joinNl (regexFinal hashF maxC ovC minC
        content fp).buffer)).length
    · rw [if_pos hmin] at hc
      rcases List.mem_append.mp hc with hold | hnew
      · exact hch c hold
      · have hle := buffer_ne_nil_start_le (pySplitLines content)
          (regexFinal hashF maxC ovC minC content fp)
          (pySplitLines content).length hbuf hne
        have hcc : c = mkRegexChunk hashF fp (detectLanguage fp)
            (joinNl (regexFinal hashF maxC ovC minC content fp).buffer)
            (regexFinal hashF maxC ovC minC content fp).start
            (pySplitLines content).length
            (regexFinal hashF maxC ovC minC content fp).ctype regexMeta := by
          simpa using hnew
        subst hcc
        refine ⟨?_, ?_, ?_, ?_, ?_⟩ <;> dsimp only [mkRegexChunk]
        · exact hs1
        · omega
        · omega
        · rw [hbuf]
    · rw [if_neg hmin] at hc
      exact hch c hc
  · rw [if_neg hne] at hc
    exact hch c hc

/-! ## The size and overlap invariant of the pattern chunker -/

theorem PairsOk_append (cs : List CodeChunk) (b : CodeChunk)
    (h : PairsOk cs) (hlast : ∀ c, cs.getLast? = some c → Overlaps c b) :
    PairsOk (cs ++ [b]) := by
  intro j x y hx hy
  rw [List.get?_eq_getElem?] at hx hy
  by_cases hj : j + 1 < cs.length
  · rw [List.getElem?_append_left (by omega)] at hx
    rw [List.getElem?_append_left hj] at hy
    exact h j x y (by rw [List.get?_eq_getElem?]; exact hx)
      (by rw [List.get?_eq_getElem?]; exact hy)
  · have hlt : j + 1 < (cs ++ [b]).length :=
      (List.getElem?_eq_some_iff.mp hy).1
    have hj1 : j + 1 = cs.length := by
      simp only [List.length_append, List.length_cons, List.length_nil] at hlt
      omega
    have hy' : y = b := by
      rw [List.getElem?_append_right (by omega)] at hy
      rw [hj1] at hy
      simp at hy
      exact hy.symm
    rw [List.getElem?_append_left (by omega)] at hx
    have hxl : cs.getLast? = some x := by
      rw [List.getLast?_eq_getElem?]
      have he : cs.length - 1 = j := by omega
      rw [he]
      exact hx
    rw [hy']
    exact hlast x hxl

theorem overlaps_of_link (c : CodeChunk) (ov : String) (rest : List String)
    (p : String) (hc : c.content = p ++ ov) (b : CodeChunk)
    (hb : b.content = joinNl (ov :: rest)) : Overlaps c b := by
  cases rest with
  | nil =>
    refine ⟨ov, p, "", hc, ?_⟩
    rw [hb]
    show joinNl [ov] = ov ++ ""
    simp [joinNl]
  | cons t ts =>
    refine ⟨ov, p, "\n" ++ joinNl (t :: ts), hc, ?_⟩
    rw [hb, joinNl_cons_ne_nil _ _ (by simp), String.append_assoc]

theorem splitPhase_SplitInv (hashF : String → String) (fp lang : String)
    (maxC : Nat) (chunks : List CodeChunk) (bufpre : List String)
    (line : String) (s0 : Nat) (ct : String) (k : Nat)
    (hpre : (joinNl bufpre).length ≤ maxC)
    (hlinelen : line.length ≤ maxC)
    (hcb : ∀ c ∈ chunks, c.content.length ≤ 2 * maxC + 1)
    (hpairs : PairsOk chunks)
    (hlink : ∀ c, chunks.getLast? = some c →
      ∃ ov rest p, bufpre ++ [line] = ov :: rest ∧ c.content = p ++ ov) :
    SplitInv maxC (splitPhase hashF fp lang maxC 20
      ⟨chunks, bufpre ++ [line], s0, ct⟩ (k + 1)) (k + 1) := by
  have hnewlen : (joinNl (bufpre ++ [line])).length ≤ 2 * maxC + 1 := by
    have := joinNl_concat_length bufpre line
    omega
  rw [splitPhase]
  dsimp only
  by_cases hsz : maxC < (joinNl (bufpre ++ [line])).length
  · rw [if_pos hsz, show (20 : Nat) / 20 = 1 from by norm_num,
      pyTakeLast_concat_one]
    refine ⟨fun h => absurd h (Nat.succ_ne_zero k), ?_, ?_, ?_, ?_⟩
    · exact hlinelen
    · intro c hc
      rcases List.mem_append.mp hc with hold | hnew
      · exact hcb c hold
      · rw [List.mem_singleton] at hnew
        subst hnew
        exact hnewlen
    · apply PairsOk_append _ _ hpairs
      intro c hlast
      obtain ⟨ov, rest, p, hbufeq, hcont⟩ := hlink c hlast
      refine overlaps_of_link c ov rest p hcont _ ?_
      show joinNl (bufpre ++ [line]) = joinNl (ov :: rest)
      rw [hbufeq]
    · intro c hlast
      rw [List.getLast?_concat] at hlast
      have hcb2 : mkRegexChunk hashF fp lang (joinNl (bufpre ++ [line])) s0
          (k + 1) ct regexSplitMeta = c := by
        injection hlast
      subst hcb2
      refine ⟨line, [], ?_⟩
      by_cases hb0 : bufpre = []
      · refine ⟨"", rfl, ?_⟩
        show joinNl (bufpre ++ [line]) = "" ++ line
        rw [joinNl_concat, if_pos hb0]
        simp
      · refine ⟨joinNl bufpre ++ "\n", rfl, ?_⟩
        show joinNl (bufpre ++ [line]) = (joinNl bufpre ++ "\n") ++ line
        rw [joinNl_concat, if_neg hb0, String.append_assoc]
  · rw [if_neg hsz]
    refine ⟨fun h => absurd h (Nat.succ_ne_zero k), by dsimp only; omega, hcb,
      hpairs, ?_⟩
    exact hlink

theorem regexStep_SplitInv (hashF : String → String) (fp lang : String)
    (maxC minC : Nat) (patterns : List (String × (String → Bool)))
    (lines : List String)
    (hlen : ∀ l ∈ lines, l.length ≤ maxC)
    (hmark : ∀ l ∈ lines.drop 1,
      ¬(lineTypeOf patterns l = "function" ∨ lineTypeOf patterns l = "class"))
    (st : RegexState) (k : Nat) (line : String)
    (hget : lines.get? k = some line) (hinv : SplitInv maxC st k) :
    SplitInv maxC (regexStep hashF fp lang maxC 20 minC patterns st (k + 1, line))
      (k + 1) := by
  obtain ⟨hz, hbound, hcb, hpairs, hlink⟩ := hinv
  rw [List.get?_eq_getElem?] at hget
  have hlinemem : line ∈ lines := List.getElem?_mem hget
  have hlinelen : line.length ≤ maxC := hlen line hlinemem
  have hnotmark : ¬((lineTypeOf patterns line = "function" ∨
      lineTypeOf patterns line = "class") ∧ st.buffer ≠ []) := by
    rcases Nat.eq_zero_or_pos k with hk0 | hkpos
    · subst hk0
      intro hco
      exact hco.2 (hz rfl)
    · intro hco
      have hidx : (lines.drop 1)[k - 1]? = some line := by
        rw [List.getElem?_drop]
        have he : 1 + (k - 1) = k := by omega
        rw [he]
        exact hget
      exact hmark line (List.getElem?_mem hidx) hco.1
  rw [regexStep]
  dsimp only
  rw [markerPhase, if_neg hnotmark]
  exact splitPhase_SplitInv hashF fp lang maxC st.chunks st.buffer line st.start
    _ k hbound hlinelen hcb hpairs
    (fun c hlast => by
      obtain ⟨ov, rest, p, hbufeq, hcont⟩ := hlink c hlast
      exact ⟨ov, rest ++ [line], p, by rw [hbufeq, List.cons_append], hcont⟩)

theorem regexFinal_SplitInv (hashF : String → String) (maxC minC : Nat)
    (content fp : String)
    (hlen : ∀ l ∈ pySplitLines content, l.length ≤ maxC)
    (hmark : ∀ l ∈ (pySplitLines content).drop 1,
      ¬(lineTypeOf (languagePatterns (detectLanguage fp)) l = "function" ∨
        lineTypeOf (languagePatterns (detectLanguage fp)) l = "class")) :
    SplitInv maxC (regexFinal hashF maxC 20 minC content fp)
      (pySplitLines content).length := by
  apply foldl_enum_inv_full
  · intro st k line hget hP
    exact regexStep_SplitInv hashF fp (detectLanguage fp) maxC minC
      (languagePatterns (detectLanguage fp)) (pySplitLines content)
      hlen hmark st k line hget hP
  · refine ⟨fun _ => rfl, ?_, ?_, ?_, ?_⟩
    · show (joinNl []).length ≤ maxC
      simp [joinNl]
    · intro c hc
      exact absurd hc (List.not_mem_nil c)
    · intro j x y hx _
      simp at hx
    · intro c hlast
      simp at hlast

/-- On a file with every line at most `max_chunk_size` characters and no
function/class marker after line 1, the pattern chunker with
`overlap_size = 20` emits only chunks of at most `2 * max_chunk_size + 1`
code points, and every adjacent pair of chunks shares an overlap: the
earlier chunk ends with the very piece the later chunk starts with. -/
theorem extractRegexChunks_split (hashF : String → String) (maxC minC : Nat)
    (content fp : String)
    (hlen : ∀ l ∈ pySplitLines content, l.length ≤ maxC)
    (hmark : ∀ l ∈ (pySplitLines content).drop 1,
      ¬(lineTypeOf (languagePatterns (detectLanguage fp)) l = "function" ∨
        lineTypeOf (languagePatterns (detectLanguage fp)) l = "class")) :
    (∀ c ∈ extractRegexChunks hashF maxC 20 minC content fp,
      c.content.length ≤ 2 * maxC + 1) ∧
    PairsOk (extractRegexChunks hashF maxC 20 minC content fp) := by
  obtain ⟨hz, hbound, hcb, hpairs, hlink⟩ :=
    regexFinal_SplitInv hashF maxC minC content fp hlen hmark
  unfold extractRegexChunks
  by_cases hne : (regexFinal hashF maxC 20 minC content fp).buffer ≠ []
  · rw [if_pos hne]
    by_cases hmin : minC ≤ (pyTrim (joinNl (regexFinal hashF maxC 20 minC
        content fp).buffer)).length
    · rw [if_pos hmin]
      constructor
      · intro c hc
        rcases List.mem_append.mp hc with hold | hnew
        · exact hcb c hold
        · have hcc : c = mkRegexChunk hashF fp (detectLanguage fp)
              (joinNl (regexFinal hashF maxC 20 minC content fp).buffer)
              (regexFinal hashF maxC 20 minC content fp).start
              (pySplitLines content).length
              (regexFinal hashF maxC 20 minC content fp).ctype regexMeta := by
            simpa using hnew
          subst hcc
          show (joinNl (regexFinal hashF maxC 20 minC content fp).buffer).length
            ≤ 2 * maxC + 1
          omega
      · apply PairsOk_append _ _ hpairs
        intro c hlast
        obtain ⟨ov, rest, p, hbufeq, hcont⟩ := hlink c hlast
        refine overlaps_of_link c ov rest p hcont _ ?_
        show joinNl (regexFinal hashF maxC 20 minC content fp).buffer
          = joinNl (ov :: rest)
        rw [hbufeq]
    · rw [if_neg hmin]
      exact ⟨hcb, hpairs⟩
  · rw [if_neg hne]
    exact ⟨hcb, hpairs⟩

/-! ## Indexed write-back of the embedding batches -/

theorem setEmb_append (pre : List CodeChunk) (c : CodeChunk)
    (cs : List CodeChunk) (e : List Rat) :
    setEmb pre.length e (pre ++ c :: cs)
      = pre ++ withEmbedding c e :: cs := by
  induction pre with
  | nil => rfl
  | cons a pre ih => simp [setEmb, ih]

theorem writeBatch_eq_writeSeq (encode : String → List Rat) (ts : List String)
    (i : Nat) (cs : List CodeChunk) :
    writeBatch i (ts.map encode) cs = writeSeq encode i ts cs := by
  induction ts generalizing i cs with
  | nil => rfl
  | cons t ts ih => simp [writeBatch, writeSeq, ih]

theorem writeSeq_append (encode : String → List Rat) (xs ys : List String)
    (i : Nat) (cs : List CodeChunk) :
    writeSeq encode i (xs ++ ys) cs
      = writeSeq encode (i + xs.length) ys (writeSeq encode i xs cs) := by
  induction xs generalizing i cs with
  | nil => simp [writeSeq]
  | cons x xs ih =>
    rw [List.cons_append]
    rw [show writeSeq encode i (x :: (xs ++ ys)) cs
      = writeSeq encode (i + 1) (xs ++ ys) (setEmb i (encode x) cs) from rfl]
    rw [show writeSeq encode i (x :: xs) cs
      = writeSeq encode (i + 1) xs (setEmb i (encode x) cs) from rfl]
    rw [ih]
    have harith : i + (x :: xs).length = i + 1 + xs.length := by
      simp only [List.length_cons]
      omega
    rw [harith]

theorem genLoop_eq_writeSeq (encode : String → List Rat) :
    ∀ (n : Nat) (ts : List String), ts.length ≤ n → ∀ (i : Nat)
      (cs : List CodeChunk), genLoop encode ts i cs = writeSeq encode i ts cs := by
  intro n
  induction n with
  | zero =>
    intro ts h i cs
    have hts : ts = [] := List.eq_nil_of_length_eq_zero (by omega)
    subst hts
    simp [genLoop, writeSeq]
  | succ n ih =>
    intro ts h i cs
    cases ts with
    | nil => simp [genLoop, writeSeq]
    | cons t ts' =>
      rw [genLoop, writeBatch_eq_writeSeq, ih ((t :: ts').drop 32)
        (by simp only [List.length_drop, List.length_cons] at h ⊢; omega),
        ← writeSeq_append, List.take_append_drop]

theorem writeSeq_maps (encode : String → List Rat) (rn : Option String) :
    ∀ (cs pre : List CodeChunk),
      writeSeq encode pre.length (cs.map (buildEmbedText rn)) (pre ++ cs)
        = pre ++ cs.map (fun c => withEmbedding c (encode (buildEmbedText rn c))) := by
  intro cs
  induction cs with
  | nil => intro pre; simp [writeSeq]
  | cons c cs ih =>
    intro pre
    simp only [List.map_cons, writeSeq]
    rw [setEmb_append]
    have hsplit : pre ++ withEmbedding c (encode (buildEmbedText rn c)) :: cs
        = (pre ++ [withEmbedding c (encode (buildEmbedText rn c))]) ++ cs := by
      simp
    have hlen : pre.length + 1
        = (pre ++ [withEmbedding c (encode (buildEmbedText rn c))]).length := by
      simp
    rw [hsplit, hlen, ih]
    simp

/-- Batched embedding generation is exactly the per-chunk update: chunk `k`
receives the vector of its own text, whatever the batch boundaries. -/
theorem generateEmbeddings_eq (encode : String → List Rat) (rn : Option String)
    (chunks : List CodeChunk) :
    generateEmbeddings encode rn chunks
      = chunks.map (fun c => withEmbedding c (encode (buildEmbedText rn c))) := by
  unfold generateEmbeddings
  rw [genLoop_eq_writeSeq encode (chunks.map (buildEmbedText rn)).length _
    (le_refl _)]
  have h := writeSeq_maps encode rn chunks []
  simpa using h

/-! ## Index building over partially embedded chunk lists -/

theorem filterMap_emb_get (cs : List CodeChunk)
    (h : ∀ c ∈ cs, c.embedding ≠ none) (k : Nat) :
    (cs.filterMap (fun c => c.embedding)).get? k
      = (cs.get? k).bind (fun c => c.embedding) := by
  induction cs generalizing k with
  | nil => rfl
  | cons c cs ih =>
    have hc := h c (by simp)
    obtain ⟨v, hv⟩ := Option.ne_none_iff_exists.mp hc
    cases k with
    | zero => simp [List.filterMap_cons, ← hv]
    | succ k =>
      simp only [List.filterMap_cons, ← hv, List.get?]
      exact ih (fun x hx => h x (by simp [hx])) k

theorem filterMap_emb_length (cs : List CodeChunk)
    (h : ∀ c ∈ cs, c.embedding ≠ none) :
    (cs.filterMap (fun c => c.embedding)).length = cs.length := by
  induction cs with
  | nil => rfl
  | cons c cs ih =>
    have hc := h c (by simp)
    obtain ⟨v, hv⟩ := Option.ne_none_iff_exists.mp hc
    simp only [List.filterMap_cons, ← hv, List.length_cons]
    rw [ih (fun x hx => h x (by simp [hx]))]

/-! ## Cache store lemmas -/

theorem loadCache_eq_none (ident : String) (store : CacheStore)
    (h : ∀ p ∈ store, p.1 ≠ ident) : loadCache ident store = none := by
  unfold loadCache
  rw [List.find?_eq_none.mpr (fun p hp => by simp [h p hp])]
  rfl

theorem saveCache_keys (key : String) (cs : List CodeChunk)
    (idx : Option FaissIndex) (store : CacheStore) (ident : String)
    (hk : key ≠ ident) (h : ∀ p ∈ store, p.1 ≠ ident) :
    ∀ p ∈ saveCache key cs idx store, p.1 ≠ ident := by
  intro p hp
  rcases List.mem_cons.mp hp with h1 | h2
  · rw [h1]
    exact hk
  · exact h p (List.mem_of_mem_filter h2)

theorem foldl_saves_notin (ident : String)
    (saves : List (String × List CodeChunk × Option FaissIndex))
    (hs : ∀ p ∈ saves, p.1 ≠ ident) :
    ∀ (store : CacheStore), (∀ p ∈ store, p.1 ≠ ident) →
      ∀ q ∈ saves.foldl (fun s p => saveCache p.1 p.2.1 p.2.2 s) store,
        q.1 ≠ ident := by
  induction saves with
  | nil => intro store h q hq; exact h q hq
  | cons a saves ih =>
    intro store h q hq
    exact ih (fun p hp => hs p (by simp [hp])) _
      (saveCache_keys a.1 a.2.1 a.2.2 store ident (hs a (by simp)) h) q hq

/-! ## Case analysis of `chunk_file` -/

theorem chunkFile_cases (astParse : String → PyParseResult)
    (hashF : String → String) (maxC ovC minC : Nat) (fp content : String)
    (cs : List CodeChunk)
    (hok : chunkFile astParse hashF maxC ovC minC fp content = .ok cs) :
    (∃ nodes, astParse content = .parsed nodes ∧
      cs = nodes.map (mkAstChunk hashF content fp)) ∨
    cs = extractRegexChunks hashF maxC ovC minC content fp := by
  unfold chunkFile at hok
  by_cases hpy : detectLanguage fp = "python"
  · rw [if_pos hpy] at hok
    unfold extractAstChunks at hok
    rw [if_pos hpy] at hok
    cases hp : astParse content with
    | parsed nodes =>
      rw [hp] at hok
      dsimp only at hok
      cases hnodes : nodes.map (mkAstChunk hashF content fp) with
      | nil =>
        rw [hnodes] at hok
        dsimp only at hok
        right
        injection hok with h
        exact h.symm
      | cons c0 cs0 =>
        rw [hnodes] at hok
        dsimp only at hok
        left
        injection hok with h
        exact ⟨nodes, rfl, by rw [← h, hnodes]⟩
    | syntaxErr =>
      rw [hp] at hok
      dsimp only at hok
      right
      injection hok with h
      exact h.symm
    | otherExc m =>
      rw [hp] at hok
      dsimp only at hok
      cases hok
  · rw [if_neg hpy] at hok
    right
    injection hok with h
    exact h.symm

/-! ## The claims -/

/-- C1.  For a pipeline whose index holds a single vector, `search(query, 2)`
does not clamp to the index size: FAISS pads the missing slot with id `-1`,
the guard `idx < len(self.chunks)` admits `-1`, and Python's negative
indexing maps it to the last chunk — so the single indexed chunk is returned
twice, the second time as a fabricated result carrying the padding score.
This contradicts the claim that `top_k` is clamped and only valid,
non-repeated rows are returned. -/
theorem c1_search_pad_bug :
    (searchPipeline (fun _ => [1]) (fun v => v) onePipeline
        "add two numbers" 2).map (fun rs => rs.map Prod.fst)
      = .ok [addChunk, addChunk] ∧
    (buildFaissIndex (fun v => v) [addChunk]).map (fun ix => ix.rows.length)
      = some 1 ∧
    onePipeline.chunks.length = 1 := by
  decide

/-- C2 (counterexample).  A successful index build over two chunks of which
the first has no embedding stores a single row, and that row holds the
embedding of `chunks[1]`, not `chunks[0]` — so `row_count = len(chunks)` and
the row-to-chunk alignment both fail when some chunks lack embeddings. -/
theorem c2_counterexample :
    (buildFaissIndex (fun v => v) [bareChunk, vecChunk]).map
        (fun ix => ix.rows.length) = some 1 ∧
    [bareChunk, vecChunk].length = 2 ∧
    (buildFaissIndex (fun v => v) [bareChunk, vecChunk]).map FaissIndex.rows
      = some [[1, 0]] ∧
    bareChunk.embedding = none ∧
    vecChunk.embedding = some [1, 0] := by
  decide

/-- C2 (amended).  After every successful build, the index stores exactly the
(normalized) embeddings of the chunks that have one, in chunk order; in
particular, when every chunk carries an embedding, `row_count = len(chunks)`
and row `i` holds the embedding of `chunks[i]`. -/
theorem c2_rows_match_embedded (normalize : List Rat → List Rat)
    (chunks : List CodeChunk) (idx : FaissIndex)
    (hbuild : buildFaissIndex normalize chunks = some idx) :
    idx.rows = (chunks.filterMap (fun c => c.embedding)).map normalize ∧
    ((∀ c ∈ chunks, c.embedding ≠ none) →
      idx.rows.length = chunks.length ∧
      ∀ k, idx.rows.get? k
        = ((chunks.get? k).bind (fun c => c.embedding)).map normalize) := by
  unfold buildFaissIndex at hbuild
  by_cases he : (chunks.filterMap (fun c => c.embedding)).isEmpty
  · rw [if_pos he] at hbuild
    cases hbuild
  · rw [if_neg he] at hbuild
    injection hbuild with h
    subst h
    refine ⟨rfl, ?_⟩
    intro hall
    constructor
    · dsimp only
      rw [List.length_map, filterMap_emb_length chunks hall]
    · intro k
      dsimp only
      rw [List.get?_eq_getElem?, List.getElem?_map, ← List.get?_eq_getElem?,
        filterMap_emb_get chunks hall k]

/-- C2 (witness): the amended statement applied to a fully embedded
single-chunk list. -/
theorem c2_witness :
    (⟨[[1, 0]]⟩ : FaissIndex).rows
      = ([vecChunk].filterMap (fun c => c.embedding)).map (fun v => v) ∧
    (⟨[[1, 0]]⟩ : FaissIndex).rows.length = [vecChunk].length ∧
    (⟨[[1, 0]]⟩ : FaissIndex).rows.get? 0
      = (([vecChunk].get? 0).bind (fun c => c.embedding)).map (fun v => v) := by
  have h := c2_rows_match_embedded (fun v => v) [vecChunk] ⟨[[1, 0]]⟩ (by decide)
  exact ⟨h.1, (h.2 (by decide)).1, (h.2 (by decide)).2 0⟩

/-- C3.  `chunk_file` catches only `SyntaxError` from the structural parser:
when `ast.parse` signals failure with any other exception class — CPython
before 3.12 raises `ValueError` for a null byte in the source, and deeply
nested sources raise `RecursionError` on every version — the exception
propagates out of `chunk_file` instead of degrading to the pattern strategy.
A `SyntaxError` on the same input does degrade to the pattern strategy. -/
theorem c3_chunk_file_raises :
    chunkFile nullByteParse trivialHash 1000 100 50 "vulnerable.py" "\x00"
      = .error "ValueError: source code string cannot contain null bytes" ∧
    chunkFile (fun _ => PyParseResult.syntaxErr) trivialHash 1000 100 50
        "vulnerable.py" "\x00"
      = .ok (extractRegexChunks trivialHash 1000 100 50 "\x00"
          "vulnerable.py") := by
  decide

set_option maxRecDepth 40000 in
/-- C4 (counterexample).  A 500-code-point single-function JavaScript file —
its first line is the only function/class marker and every line is at most
100 characters — chunked with `max_chunk_size = 100` and `overlap_size = 20`
yields a chunk longer than 100 characters (the size check fires only after
the crossing line has been appended), and a size-split chunk whose copied
overlap line is longer than `overlap_size` characters. -/
theorem c4_counterexample :
    ledgerContent.length = 500 ∧
    lineTypeOf (languagePatterns (detectLanguage "ledger.js"))
      ((pySplitLines ledgerContent).headD "") = "function" ∧
    (∀ l ∈ pySplitLines ledgerContent, l.length ≤ 100) ∧
    (∀ l ∈ (pySplitLines ledgerContent).drop 1,
      ¬(lineTypeOf (languagePatterns (detectLanguage "ledger.js")) l
          = "function" ∨
        lineTypeOf (languagePatterns (detectLanguage "ledger.js")) l
          = "class")) ∧
    (extractRegexChunks trivialHash 100 20 50 ledgerContent "ledger.js").any
      (fun c => decide (100 < c.content.length) &&
        decide (20 < (lastLineOf c.content).length)) = true := by
  decide

set_option maxRecDepth 40000 in
/-- C4 (amended).  With `max_chunk_size = 100` and `overlap_size = 20`, on
any file whose lines are at most 100 characters and whose function/class
markers can only sit on line 1 (a single-function file), every emitted chunk
is at most `2 * 100 + 1` characters — the bound may be overshot by the one
line whose addition crossed it — and every chunk after the first starts with
a piece its predecessor ends with (the predecessor's final line, copied
forward as a one-line overlap).  On the concrete 500-character
single-function file the chunker emits several chunks and each copied
overlap is non-empty (and may exceed `overlap_size` characters). -/
theorem c4_split_overlap :
    (∀ (hashF : String → String) (minC : Nat) (content fp : String),
      (∀ l ∈ pySplitLines content, l.length ≤ 100) →
      (∀ l ∈ (pySplitLines content).drop 1,
        ¬(lineTypeOf (languagePatterns (detectLanguage fp)) l = "function" ∨
          lineTypeOf (languagePatterns (detectLanguage fp)) l = "class")) →
      (∀ c ∈ extractRegexChunks hashF 100 20 minC content fp,
        c.content.length ≤ 2 * 100 + 1) ∧
      PairsOk (extractRegexChunks hashF 100 20 minC content fp)) ∧
    2 ≤ (extractRegexChunks trivialHash 100 20 50 ledgerContent
      "ledger.js").length ∧
    (List.range ((extractRegexChunks trivialHash 100 20 50 ledgerContent
        "ledger.js").length - 1)).all (fun j =>
      match (extractRegexChunks trivialHash 100 20 50 ledgerContent
          "ledger.js").get? j,
        (extractRegexChunks trivialHash 100 20 50 ledgerContent
          "ledger.js").get? (j + 1) with
      | some a, some b =>
        strStartsWith b.content (lastLineOf a.content) &&
          decide (lastLineOf a.content ≠ "")
      | _, _ => false) = true := by
  refine ⟨?_, ?_, ?_⟩
  · intro hashF minC content fp h1 h2
    exact extractRegexChunks_split hashF 100 minC content fp h1 h2
  · decide
  · decide

set_option maxRecDepth 40000 in
/-- C4 (witness): the general amended statement applied to the concrete
500-character single-function file. -/
theorem c4_witness :
    (∀ c ∈ extractRegexChunks trivialHash 100 20 50 ledgerContent "ledger.js",
      c.content.length ≤ 2 * 100 + 1) ∧
    PairsOk (extractRegexChunks trivialHash 100 20 50 ledgerContent
      "ledger.js") :=
  c4_split_overlap.1 trivialHash 50 ledgerContent "ledger.js"
    (by decide) (by decide)

theorem pyTakeLast_singleton (x : String) (k : Nat) :
    pyTakeLast [x] k = [x] := by
  unfold pyTakeLast
  by_cases h1 : ([x] : List String).length > k
  · have hk : k = 0 := by simp at h1; omega
    rw [if_pos h1, if_pos hk]
  · rw [if_neg h1]

/-- C5 (amended).  At a function/class marker with a non-empty running
buffer, the buffer is emitted as one chunk exactly when its stripped content
reaches `min_chunk_size` (smaller buffers are discarded), a new buffer
starts at the current line, and — when the marker line alone already exceeds
`max_chunk_size` — the size split additionally emits it at once. -/
theorem c5_marker_emit (hashF : String → String) (fp lang : String)
    (maxC ovC minC : Nat) (patterns : List (String × (String → Bool)))
    (st : RegexState) (i : Nat) (line : String)
    (hbuf : st.buffer ≠ [])
    (hmark : lineTypeOf patterns line = "function" ∨
      lineTypeOf patterns line = "class") :
    (regexStep hashF fp lang maxC ovC minC patterns st (i, line)).chunks
      = st.chunks
        ++ (if minC ≤ (pyTrim (joinNl st.buffer)).length then
              [mkRegexChunk hashF fp lang (joinNl st.buffer) st.start (i - 1)
                st.ctype regexMeta]
            else [])
        ++ (if maxC < line.length then
              [mkRegexChunk hashF fp lang line i i
                (lineTypeOf patterns line) regexSplitMeta]
            else []) ∧
    (regexStep hashF fp lang maxC ovC minC patterns st (i, line)).buffer
      = [line] ∧
    (regexStep hashF fp lang maxC ovC minC patterns st (i, line)).start = i := by
  rw [regexStep]
  dsimp only
  rw [markerPhase, if_pos ⟨hmark, hbuf⟩, splitPhase]
  dsimp only
  have hjoin : joinNl [line] = line := rfl
  rw [hjoin, pyTakeLast_singleton]
  by_cases hsz : maxC < line.length
  · rw [if_pos hsz, if_pos hsz]
    refine ⟨?_, rfl, ?_⟩
    · by_cases hmin : minC ≤ (pyTrim (joinNl st.buffer)).length
      · rw [if_pos hmin, if_pos hmin]
      · rw [if_neg hmin, if_neg hmin]
        simp
    · dsimp only [List.length_cons, List.length_nil]
      omega
  · rw [if_neg hsz, if_neg hsz]
    refine ⟨?_, rfl, rfl⟩
    by_cases hmin : minC ≤ (pyTrim (joinNl st.buffer)).length
    · rw [if_pos hmin, if_pos hmin]
      simp
    · rw [if_neg hmin, if_neg hmin]
      simp

/-- C5 (counterexample).  In the concrete JavaScript file, the buffer before
line 2 is the non-empty `["var x = 1;"]` and line 2 is a function marker,
yet the emitted chunks contain no chunk with that buffer's content — the
stripped buffer is shorter than `min_chunk_size`, so the boundary discards
it, refuting "every non-empty buffer at a marker boundary produces a
chunk". -/
theorem c5_counterexample :
    ((List.enumFrom 1 (pySplitLines pluginContent)).take 1).foldl
        (regexStep trivialHash "plugin.js" "javascript" 1000 100 50
          (languagePatterns "javascript"))
        ⟨[], [], 1, "mixed"⟩
      = ⟨[], ["var x = 1;"], 1, "mixed"⟩ ∧
    lineTypeOf (languagePatterns "javascript") "function f() \x7b"
      = "function" ∧
    (pySplitLines pluginContent).get? 1 = some "function f() \x7b" ∧
    (extractRegexChunks trivialHash 1000 100 50 pluginContent
        "plugin.js").map (fun c => c.content)
      = ["function f() \x7b\n  return veryImportantValue + anotherValue;\n\x7d"]
      := by
  decide

/-- C5 (witness): the amended statement applied to a concrete state holding
a 48-character buffer when a function marker arrives. -/
theorem c5_witness :
    (regexStep trivialHash "plugin.js" "javascript" 1000 100 50
        (languagePatterns "javascript")
        ⟨[], ["let overlay = renderOverlay(container, options);"], 1, "mixed"⟩
        (2, "function attach() \x7b")).chunks
      = []
        ++ (if 50 ≤ (pyTrim (joinNl
              ["let overlay = renderOverlay(container, options);"])).length then
              [mkRegexChunk trivialHash "plugin.js" "javascript"
                (joinNl ["let overlay = renderOverlay(container, options);"])
                1 (2 - 1) "mixed" regexMeta]
            else [])
        ++ (if 1000 < ("function attach() \x7b" : String).length then
              [mkRegexChunk trivialHash "plugin.js" "javascript"
                "function attach() \x7b" 2 2
                (lineTypeOf (languagePatterns "javascript")
                  "function attach() \x7b") regexSplitMeta]
            else []) ∧
    (regexStep trivialHash "plugin.js" "javascript" 1000 100 50
        (languagePatterns "javascript")
        ⟨[], ["let overlay = renderOverlay(container, options);"], 1, "mixed"⟩
        (2, "function attach() \x7b")).buffer = ["function attach() \x7b"] ∧
    (regexStep trivialHash "plugin.js" "javascript" 1000 100 50
        (languagePatterns "javascript")
        ⟨[], ["let overlay = renderOverlay(container, options);"], 1, "mixed"⟩
        (2, "function attach() \x7b")).start = 2 :=
  c5_marker_emit trivialHash "plugin.js" "javascript" 1000 100 50
    (languagePatterns "javascript")
    ⟨[], ["let overlay = renderOverlay(container, options);"], 1, "mixed"⟩
    2 "function attach() \x7b" (by decide) (by decide)

/-- C6 (counterexample).  A chunk of a one-line Go file containing `é` has
`size = 57` (Python `len`, code points) while its content is 58 UTF-8 bytes,
so `size` is not the byte length of the content. -/
theorem c6_counterexample :
    (extractRegexChunks trivialHash 1000 100 50 cafeContent "notes.go").map
        (fun c => (c.size, c.content.utf8ByteSize)) = [(57, 58)] ∧
    (57 : Nat) ≠ 58 := by
  decide

/-- C6 (amended).  Every chunk emitted by either strategy satisfies
`end_line >= start_line`, and `size` equals the number of Unicode code
points of `content` (Python's `len`), which differs from the UTF-8 byte
length on non-ASCII text.  The structural side relies on CPython's AST
guarantee `end_lineno >= lineno`, taken as a hypothesis on the parse
outcome. -/
theorem c6_size_lines (astParse : String → PyParseResult)
    (hashF : String → String) (maxC ovC minC : Nat) (fp content : String)
    (cs : List CodeChunk)
    (hok : chunkFile astParse hashF maxC ovC minC fp content = .ok cs)
    (hast : ∀ nodes, astParse content = .parsed nodes → ∀ nd ∈ nodes,
      nd.lineno ≤ nd.endLineno.getD nd.lineno) :
    ∀ c ∈ cs, c.start_line ≤ c.end_line ∧ c.size = c.content.length := by
  rcases chunkFile_cases astParse hashF maxC ovC minC fp content cs hok with
    ⟨nodes, hp, hcs⟩ | hcs
  · intro c hc
    rw [hcs] at hc
    obtain ⟨nd, hnd, hcnd⟩ := List.mem_map.mp hc
    subst hcnd
    exact ⟨hast nodes hp nd hnd, rfl⟩
  · intro c hc
    rw [hcs] at hc
    have h := extractRegexChunks_ChunkInv hashF maxC ovC minC content fp c hc
    exact ⟨h.2.1, h.2.2.2.2⟩

/-- C6 (witness): the amended statement applied to the structural chunking
of a concrete two-line Python function. -/
theorem c6_witness :
    calcChunk.start_line ≤ calcChunk.end_line ∧
    calcChunk.size = calcChunk.content.length :=
  c6_size_lines calcParse trivialHash 1000 100 50 "calc.py" calcContent
    [calcChunk] (by decide)
    (by
      intro nodes h nd hnd
      have h0 : calcParse calcContent
          = PyParseResult.parsed [⟨AstKind.funcDef, "add", 1, some 2, none⟩] := by
        decide
      rw [h0] at h
      injection h with h1
      subst h1
      simp at hnd
      subst hnd
      decide)
    calcChunk (by simp)

/-- C7.  Saving a cache entry and loading it back under the same identity
yields the serialized chunk records and index vectors unchanged;
deserialization inverts serialization on chunk records, embedding included;
and loading an identity that was never saved (any sequence of saves under
other identities, starting from an empty store) yields none. -/
theorem c7_cache_round_trip (ident : String) (cs : List CodeChunk)
    (idx : Option FaissIndex) (store : CacheStore) :
    loadCache ident (saveCache ident cs idx store)
      = some ⟨cs.map CodeChunk.toDict, idx⟩ ∧
    (cs.map CodeChunk.toDict).map SerializedChunk.fromDict = cs ∧
    ∀ (saves : List (String × List CodeChunk × Option FaissIndex)),
      (∀ p ∈ saves, p.1 ≠ ident) →
      loadCache ident (saves.foldl
        (fun s p => saveCache p.1 p.2.1 p.2.2 s) emptyStore) = none := by
  refine ⟨?_, ?_, ?_⟩
  · simp [loadCache, saveCache, List.find?_cons]
  · have hid : SerializedChunk.fromDict ∘ CodeChunk.toDict = id :=
      funext fun c => rfl
    rw [List.map_map, hid, List.map_id]
  · intro saves hs
    exact loadCache_eq_none ident _
      (foldl_saves_notin ident saves hs emptyStore
        (fun p hp => absurd hp (List.not_mem_nil p)))

/-- C7 (witness): a concrete save/load round trip and a concrete miss for an
identity only other identities were saved under. -/
theorem c7_witness :
    loadCache "octo_calc" (saveCache "octo_calc" [addChunk] none emptyStore)
      = some ⟨[addChunk].map CodeChunk.toDict, none⟩ ∧
    ([addChunk].map CodeChunk.toDict).map SerializedChunk.fromDict
      = [addChunk] ∧
    loadCache "octo_calc"
      ([("other_repo", ([] : List CodeChunk), (none : Option FaissIndex))].foldl
        (fun s p => saveCache p.1 p.2.1 p.2.2 s) emptyStore) = none := by
  have h := c7_cache_round_trip "octo_calc" [addChunk] none emptyStore
  exact ⟨h.1, h.2.1, h.2.2
    [("other_repo", ([] : List CodeChunk), (none : Option FaissIndex))]
    (by decide)⟩

/-- C8.  Without `force_rebuild`, a cache entry that is absent or whose
deserialization raised is treated as a cache miss: no error reaches the
caller, and the pipeline performs the full rebuild — chunk every extracted
file (isolating per-file failures), generate embeddings, and build a fresh
index — exactly as it would with no cache at all. -/
theorem c8_cache_miss_rebuild (enc : String → List Rat)
    (normalize : List Rat → List Rat)
    (repoFullName : Option String) (astParse : String → PyParseResult)
    (hashF : String → String) (maxC ovC minC : Nat)
    (savedIndex : Option FaissIndex) (files : List (String × String))
    (e : String) :
    processRepository enc normalize repoFullName astParse hashF maxC ovC minC
        false (some (.error e)) savedIndex files
      = (⟨generateEmbeddings enc repoFullName
            (rebuildChunks astParse hashF maxC ovC minC files),
          buildFaissIndex normalize (generateEmbeddings enc repoFullName
            (rebuildChunks astParse hashF maxC ovC minC files))⟩, false) ∧
    processRepository enc normalize repoFullName astParse hashF maxC ovC minC
        false none savedIndex files
      = (⟨generateEmbeddings enc repoFullName
            (rebuildChunks astParse hashF maxC ovC minC files),
          buildFaissIndex normalize (generateEmbeddings enc repoFullName
            (rebuildChunks astParse hashF maxC ovC minC files))⟩, false) :=
  ⟨rfl, rfl⟩

/-- C9.  For every chunk at position `k`, the text sent to the embedding
provider is the contextual header — repository identity, file path, chunk
type, language, and the symbol name when present and non-empty — followed by
the raw content, and the resulting vector is written back into chunk `k`'s
own embedding slot by index, whatever the 32-wide batch boundaries: batched
generation equals the per-chunk update map, so no batch can misalign
chunk-to-embedding assignment. -/
theorem c9_embedding_text_writeback (encode : String → List Rat)
    (repoFullName : Option String) (chunks : List CodeChunk) :
    generateEmbeddings encode repoFullName chunks
      = chunks.map (fun c => withEmbedding c (encode (
          "Repository: " ++ repoFullName.getD "Unknown" ++ "\n" ++
          "File: " ++ c.file_path ++ "\n" ++
          "Type: " ++ c.chunk_type ++ "\n" ++
          "Language: " ++ c.language ++ "\n" ++
          (match c.metadata.nameKey with
           | some n => if n = "" then "" else "Name: " ++ n ++ "\n"
           | none => "") ++
          "Content:\n" ++ c.content))) :=
  generateEmbeddings_eq encode repoFullName chunks

/-- C10.  Every chunk produced by either chunking strategy reports its
location faithfully: `1 <= start_line <= end_line <= number of lines`, and
its content is exactly the newline-join of the input's lines from
`start_line` through `end_line`.  The structural side relies on CPython's
guarantees about parsed node positions (`lineno >= 1` and
`lineno <= end_lineno <= number of lines`), taken as a hypothesis on the
parse outcome; the pattern side is unconditional. -/
theorem c10_chunk_location (astParse : String → PyParseResult)
    (hashF : String → String) (maxC ovC minC : Nat) (fp content : String)
    (cs : List CodeChunk)
    (hok : chunkFile astParse hashF maxC ovC minC fp content = .ok cs)
    (hast : ∀ nodes, astParse content = .parsed nodes → ∀ nd ∈ nodes,
      1 ≤ nd.lineno ∧ nd.lineno ≤ nd.endLineno.getD nd.lineno ∧
      nd.endLineno.getD nd.lineno ≤ (pySplitLines content).length) :
    ∀ c ∈ cs, 1 ≤ c.start_line ∧ c.start_line ≤ c.end_line ∧
      c.end_line ≤ (pySplitLines content).length ∧
      c.content = joinNl (sliceLines (pySplitLines content)
        c.start_line c.end_line) := by
  rcases chunkFile_cases astParse hashF maxC ovC minC fp content cs hok with
    ⟨nodes, hp, hcs⟩ | hcs
  · intro c hc
    rw [hcs] at hc
    obtain ⟨nd, hnd, hcnd⟩ := List.mem_map.mp hc
    subst hcnd
    obtain ⟨h1, h2, h3⟩ := hast nodes hp nd hnd
    exact ⟨h1, h2, h3, rfl⟩
  · intro c hc
    rw [hcs] at hc
    have h := extractRegexChunks_ChunkInv hashF maxC ovC minC content fp c hc
    exact ⟨h.1, h.2.1, h.2.2.1, h.2.2.2.1⟩

/-- C10 (witness): the location invariant applied to the structural chunking
of a concrete two-line Python function. -/
theorem c10_witness :
    1 ≤ calcChunk.start_line ∧ calcChunk.start_line ≤ calcChunk.end_line ∧
    calcChunk.end_line ≤ (pySplitLines calcContent).length ∧
    calcChunk.content = joinNl (sliceLines (pySplitLines calcContent)
      calcChunk.start_line calcChunk.end_line) :=
  c10_chunk_location calcParse trivialHash 1000 100 50 "calc.py" calcContent
    [calcChunk] (by decide)
    (by
      intro nodes h nd hnd
      have h0 : calcParse calcContent
          = PyParseResult.parsed [⟨AstKind.funcDef, "add", 1, some 2, none⟩] := by
        decide
      rw [h0] at h
      injection h with h1
      subst h1
      simp at hnd
      subst hnd
      decide)
    calcChunk (by simp)

end GitRagx
